import Mathlib

/-!
Shallow embedding of the `range_bounds_map` crate core: an ordered
associative container keyed by ranges (pairs of start/end bounds over an
ordered point type), maintaining the invariant that no two stored
range-keys overlap.  The crate root (`src/lib.rs`) only declares the
modules `bounds`, `range_bounds_map` and `range_bounds_set` and re-exports
`RangeBoundsMap` and `InsertError`; the module bodies are not part of the
provided sources, so the operations below are modelled from the spec
(§3, §4.1–§4.3, §6, §7).  Points are fixed to `Int`; the value type stays
generic.
-/

/-- Modelled from the spec: the data model `Bound` of §3, a tagged value
over `Unbounded`, `Included(point)`, `Excluded(point)` (the missing
`bounds` module wraps these for ordering). -/
inductive Bound where
  | unbounded : Bound
  | included : Int → Bound
  | excluded : Int → Bound
deriving DecidableEq

/-- Modelled from the spec: a range-key reports a start bound and an end
bound (§3, the `RangeBounds` capability of the missing map module). -/
structure RangeKey where
  startBound : Bound
  endBound : Bound
deriving DecidableEq

/-- Modelled from the spec: the start-bound total order of §4.1 —
`Unbounded` is less than everything; at the same point `Included` is less
than `Excluded`; otherwise order by point value. -/
def startLE : Bound → Bound → Bool
  | .unbounded, _ => true
  | _, .unbounded => false
  | .included a, .included b => a ≤ b
  | .included a, .excluded b => a ≤ b
  | .excluded a, .included b => a < b
  | .excluded a, .excluded b => a ≤ b

/-- Modelled from the spec: the end-bound total order of §4.1 —
`Unbounded` is greater than everything; at the same point `Excluded` is
less than `Included`; otherwise order by point value. -/
def endLE : Bound → Bound → Bool
  | _, .unbounded => true
  | .unbounded, _ => false
  | .included a, .included b => a ≤ b
  | .included a, .excluded b => a < b
  | .excluded a, .included b => a ≤ b
  | .excluded a, .excluded b => a ≤ b

/-- Modelled from the spec: the cross comparison of §4.1 between a start
bound and an end bound, testing that the range from the start to the end
is non-empty; equal points with `Excluded` against `Included` are
adjacent-but-non-overlapping. -/
def crossLE : Bound → Bound → Bool
  | .unbounded, _ => true
  | _, .unbounded => true
  | .included a, .included b => a ≤ b
  | .included a, .excluded b => a < b
  | .excluded a, .included b => a < b
  | .excluded a, .excluded b => a < b

/-- Strict version of the start-bound order. -/
def startLT (a b : Bound) : Bool := !startLE b a

/-- Strict version of the end-bound order. -/
def endLT (a b : Bound) : Bool := !endLE b a

/-- The larger of two start bounds under the start-bound order. -/
def startMax (a b : Bound) : Bound := if startLE a b then b else a

/-- The smaller of two end bounds under the end-bound order. -/
def endMin (a b : Bound) : Bound := if endLE a b then a else b

/-- Modelled from the spec: validity of a range-key (§3, §7) — the range
is non-empty, i.e. its start is not ordered after its end under the cross
comparison (this also rejects the zero-width exclusive degenerate case). -/
def validB (k : RangeKey) : Bool := crossLE k.startBound k.endBound

/-- Modelled from the spec: two ranges overlap when their computed
intersection — greater start, smaller end — is non-empty per the §4.1
touching rule (§4.2, Glossary). -/
def overlapB (a b : RangeKey) : Bool :=
  crossLE (startMax a.startBound b.startBound) (endMin a.endBound b.endBound)

/-- Whether the point `p` satisfies a start bound (lies at or after it). -/
def startSat : Bound → Int → Bool
  | .unbounded, _ => true
  | .included a, p => a ≤ p
  | .excluded a, p => a < p

/-- Whether the point `p` satisfies an end bound (lies at or before it). -/
def endSat : Bound → Int → Bool
  | .unbounded, _ => true
  | .included a, p => p ≤ a
  | .excluded a, p => p < a

/-- Point membership in a range-key: the point satisfies both bounds. -/
def memB (k : RangeKey) (p : Int) : Bool :=
  startSat k.startBound p && endSat k.endBound p

/-- Modelled from the spec: the overlap map of §2/§4.2 — an ordered map
from wrapped start bound to (range-key, value), embedded as a list of
entries kept sorted ascending by start bound. -/
structure RangeBoundsMap (V : Type) where
  entries : List (RangeKey × V)
deriving DecidableEq

/-- The empty map (construction surface of §6). -/
def RangeBoundsMap.empty {V : Type} : RangeBoundsMap V := ⟨[]⟩

/-- Modelled from the spec: `overlapping(query_range)` (§4.2) — the
entries whose computed overlap with the query range is non-empty, ordered
ascending by start bound (the backing scan visits entries in start-bound
order and yields exactly those). -/
def overlapping {V : Type} (q : RangeKey) (m : RangeBoundsMap V) :
    List (RangeKey × V) :=
  m.entries.filter (fun e => overlapB e.1 q)

/-- Modelled from the spec: `overlaps(query_range)` (§4.2) — true iff
`overlapping` would yield at least one item, short-circuiting after the
first match. -/
def overlaps {V : Type} (q : RangeKey) (m : RangeBoundsMap V) : Bool :=
  m.entries.any (fun e => overlapB e.1 q)

/-- Modelled from the spec: `contains_point(point)` (§4.2) — `overlaps`
with a single-point degenerate range. -/
def contains_point {V : Type} (p : Int) (m : RangeBoundsMap V) : Bool :=
  overlaps ⟨.included p, .included p⟩ m

/-- Modelled from the spec: `get_at_point(point)` (§4.2) — the value of
the entry overlapping the single-point degenerate range, if any. -/
def get_at_point {V : Type} (p : Int) (m : RangeBoundsMap V) : Option V :=
  (overlapping ⟨.included p, .included p⟩ m).head?.map (·.2)

/-- Modelled from the spec: the error surface of `insert` (§7 and the
`InsertError` re-export in `src/lib.rs` line 199) — an overlap error
carrying the conflicting existing entries, or an invalid-range error. -/
inductive InsertError (V : Type) where
  | overlapError : List (RangeKey × V) → InsertError V
  | invalidRange : InsertError V
deriving DecidableEq

/-- Insertion into the backing sorted entry list, keyed by start bound. -/
def insertSorted {V : Type} (x : RangeKey × V) :
    List (RangeKey × V) → List (RangeKey × V)
  | [] => [x]
  | y :: ys =>
    if startLE x.1.startBound y.1.startBound then x :: y :: ys
    else y :: insertSorted x ys

/-- Modelled from the spec: `insert(range_key, value)` (§4.3, §7) — the
invalid range is rejected before any comparison against existing entries;
an overlapping range is rejected with the conflicting entries; otherwise
exactly one new entry is added. -/
def RangeBoundsMap.insert {V : Type} (m : RangeBoundsMap V) (k : RangeKey) (v : V) :
    Except (InsertError V) (RangeBoundsMap V) :=
  if validB k = false then .error .invalidRange
  else if overlaps k m then .error (.overlapError (overlapping k m))
  else .ok ⟨insertSorted (k, v) m.entries⟩

/-- Removal of the first entry whose range-key exactly equals the given
key, from the backing entry list. -/
def removeExact {V : Type} (k : RangeKey) :
    List (RangeKey × V) → Option V × List (RangeKey × V)
  | [] => (none, [])
  | x :: xs =>
    if x.1 = k then (some x.2, xs)
    else
      let r := removeExact k xs
      (r.1, x :: r.2)

/-- Modelled from the spec: `remove(range_key)` (§4.3) — removes the
entry whose range-key exactly equals the given key (same start and end
bounds, not merely overlapping); returns the removed value if present. -/
def remove {V : Type} (k : RangeKey) (m : RangeBoundsMap V) :
    Option V × RangeBoundsMap V :=
  let r := removeExact k m.entries
  (r.1, ⟨r.2⟩)

/-- The end bound just before a start bound: the left residual of a cut
ends right where the query starts. -/
def flipStartToEnd : Bound → Bound
  | .unbounded => .unbounded
  | .included a => .excluded a
  | .excluded a => .included a

/-- The start bound just after an end bound: the right residual of a cut
starts right where the query ends. -/
def flipEndToStart : Bound → Bound
  | .unbounded => .unbounded
  | .included a => .excluded a
  | .excluded a => .included a

/-- The overlapping sub-range of an entry with the query: greater start,
smaller end, original value. -/
def fragOf {V : Type} (q : RangeKey) (e : RangeKey × V) : RangeKey × V :=
  (⟨startMax e.1.startBound q.startBound, endMin e.1.endBound q.endBound⟩, e.2)

/-- The residual left of the query: present when the entry starts
strictly before the query, covering the part of the entry before the
query's start, with the original value. -/
def leftResidual {V : Type} (q : RangeKey) (e : RangeKey × V) :
    List (RangeKey × V) :=
  if startLT e.1.startBound q.startBound then
    [(⟨e.1.startBound, flipStartToEnd q.startBound⟩, e.2)]
  else []

/-- The residual right of the query: present when the entry ends strictly
after the query, covering the part of the entry after the query's end,
with the original value. -/
def rightResidual {V : Type} (q : RangeKey) (e : RangeKey × V) :
    List (RangeKey × V) :=
  if endLT q.endBound e.1.endBound then
    [(⟨flipEndToStart q.endBound, e.1.endBound⟩, e.2)]
  else []

/-- Modelled from the spec: the per-entry effect of `cut(query_range)`
(§4.3) — a non-overlapping entry is kept; an overlapping entry yields its
overlapping sub-range and leaves 0, 1, or 2 residual entries covering the
non-overlapping remainders, each keeping the original value.  Returns
(residual entries, yielded fragments). -/
def cutEntry {V : Type} (q : RangeKey) (e : RangeKey × V) :
    List (RangeKey × V) × List (RangeKey × V) :=
  if overlapB e.1 q = false then ([e], [])
  else (leftResidual q e ++ rightResidual q e, [fragOf q e])

/-- The cut over the backing entry list, entry by entry in stored order. -/
def cutList {V : Type} (q : RangeKey) :
    List (RangeKey × V) → List (RangeKey × V) × List (RangeKey × V)
  | [] => ([], [])
  | e :: rest =>
    let r := cutList q rest
    ((cutEntry q e).1 ++ r.1, (cutEntry q e).2 ++ r.2)

/-- Modelled from the spec: `cut(query_range)` (§4.3) — removes the
portion of every stored range that overlaps the query, splitting partial
overlaps; returns the residual map and the yielded fragments ordered by
the original entries' start bound ascending. -/
def cut {V : Type} (q : RangeKey) (m : RangeBoundsMap V) :
    RangeBoundsMap V × List (RangeKey × V) :=
  let r := cutList q m.entries
  (⟨r.1⟩, r.2)

/-- Modelled from the spec: bulk construction from a collection of
(range, value) pairs (§6, and the `try_from` doc example in
`src/lib.rs` lines 81–101) — fails atomically if any pair is invalid or
overlaps another. -/
def tryFrom {V : Type} (l : List (RangeKey × V)) :
    Except (InsertError V) (RangeBoundsMap V) :=
  l.foldlM (fun m e => m.insert e.1 e.2) RangeBoundsMap.empty

/-! Basic facts about the bound orders of §4.1. -/

theorem startLE_refl (a : Bound) : startLE a a = true := by
  rcases a <;> simp [startLE]

theorem startLE_total (a b : Bound) :
    startLE a b = true ∨ startLE b a = true := by
  rcases a <;> rcases b <;> simp_all [startLE] <;> omega

theorem startLE_trans {a b c : Bound} (h1 : startLE a b = true)
    (h2 : startLE b c = true) : startLE a c = true := by
  rcases a <;> rcases b <;> rcases c <;> simp_all [startLE] <;> omega

theorem endLE_refl (a : Bound) : endLE a a = true := by
  rcases a <;> simp [endLE]

theorem endLE_total (a b : Bound) :
    endLE a b = true ∨ endLE b a = true := by
  rcases a <;> rcases b <;> simp_all [endLE] <;> omega

theorem endLE_trans {a b c : Bound} (h1 : endLE a b = true)
    (h2 : endLE b c = true) : endLE a c = true := by
  rcases a <;> rcases b <;> rcases c <;> simp_all [endLE] <;> omega

theorem cross_of_startLE {a b c : Bound} (h1 : startLE a b = true)
    (h2 : crossLE b c = true) : crossLE a c = true := by
  rcases a <;> rcases b <;> rcases c <;>
    simp_all [startLE, crossLE] <;> omega

theorem cross_of_endLE {a b c : Bound} (h1 : crossLE a b = true)
    (h2 : endLE b c = true) : crossLE a c = true := by
  rcases a <;> rcases b <;> rcases c <;>
    simp_all [endLE, crossLE] <;> omega

theorem startLE_startMax_left (a b : Bound) :
    startLE a (startMax a b) = true := by
  unfold startMax
  split
  · assumption
  · exact startLE_refl a

theorem startLE_startMax_right (a b : Bound) :
    startLE b (startMax a b) = true := by
  unfold startMax
  split
  · exact startLE_refl b
  · rcases startLE_total a b with h | h
    · simp_all
    · exact h

theorem startMax_le {a b c : Bound} (h1 : startLE a c = true)
    (h2 : startLE b c = true) : startLE (startMax a b) c = true := by
  unfold startMax
  split <;> assumption

theorem endMin_endLE_left (a b : Bound) :
    endLE (endMin a b) a = true := by
  unfold endMin
  split
  · exact endLE_refl a
  · rcases endLE_total a b with h | h
    · simp_all
    · exact h

theorem endMin_endLE_right (a b : Bound) :
    endLE (endMin a b) b = true := by
  unfold endMin
  split
  · assumption
  · exact endLE_refl b

theorem le_endMin {a b c : Bound} (h1 : endLE c a = true)
    (h2 : endLE c b = true) : endLE c (endMin a b) = true := by
  unfold endMin
  split <;> assumption

theorem startSat_mono {a b : Bound} {p : Int} (h1 : startLE a b = true)
    (h2 : startSat b p = true) : startSat a p = true := by
  rcases a <;> rcases b <;> simp_all [startLE, startSat] <;> omega

theorem endSat_mono {a b : Bound} {p : Int} (h1 : endLE a b = true)
    (h2 : endSat a p = true) : endSat b p = true := by
  rcases a <;> rcases b <;> simp_all [endLE, endSat] <;> omega

theorem cross_of_sat {s e : Bound} {p : Int} (h1 : startSat s p = true)
    (h2 : endSat e p = true) : crossLE s e = true := by
  rcases s <;> rcases e <;> simp_all [startSat, endSat, crossLE] <;> omega

theorem startSat_startMax (a b : Bound) (p : Int) :
    startSat (startMax a b) p = true ↔
      (startSat a p = true ∧ startSat b p = true) := by
  rcases a <;> rcases b <;>
    simp only [startMax, startLE, startSat] <;>
    split_ifs <;> simp_all <;> omega

theorem endSat_endMin (a b : Bound) (p : Int) :
    endSat (endMin a b) p = true ↔
      (endSat a p = true ∧ endSat b p = true) := by
  rcases a <;> rcases b <;>
    simp only [endMin, endLE, endSat] <;>
    split_ifs <;> simp_all <;> omega

/-! Facts about the residual-boundary flips used by `cut`. -/

theorem endSat_flipStart {s : Bound} (h : s ≠ .unbounded) (p : Int) :
    endSat (flipStartToEnd s) p = true ↔ ¬ startSat s p = true := by
  rcases s <;> simp_all [flipStartToEnd, startSat, endSat] <;> omega

theorem startSat_flipEnd {e : Bound} (h : e ≠ .unbounded) (p : Int) :
    startSat (flipEndToStart e) p = true ↔ ¬ endSat e p = true := by
  rcases e <;> simp_all [flipEndToStart, startSat, endSat] <;> omega

theorem endLE_flipStart {s e : Bound} (hs : s ≠ .unbounded)
    (h : crossLE s e = true) : endLE (flipStartToEnd s) e = true := by
  rcases s <;> rcases e <;>
    simp_all [flipStartToEnd, crossLE, endLE] <;> omega

theorem startLE_flipEnd {s e : Bound} (he : e ≠ .unbounded)
    (h : crossLE s e = true) : startLE s (flipEndToStart e) = true := by
  rcases s <;> rcases e <;>
    simp_all [flipEndToStart, crossLE, startLE] <;> omega

theorem cross_flip_gap {s e : Bound} (hs : s ≠ .unbounded)
    (he : e ≠ .unbounded) (h : crossLE s e = true) :
    crossLE (flipEndToStart e) (flipStartToEnd s) = false := by
  rcases s <;> rcases e <;>
    simp_all [flipEndToStart, flipStartToEnd, crossLE] <;> omega

theorem cross_startLT_flip {a b : Bound} (h : startLT a b = true) :
    crossLE a (flipStartToEnd b) = true := by
  rcases a <;> rcases b <;>
    simp_all [startLT, startLE, flipStartToEnd, crossLE] <;> omega

theorem cross_endLT_flip {a b : Bound} (h : endLT a b = true) :
    crossLE (flipEndToStart a) b = true := by
  rcases a <;> rcases b <;>
    simp_all [endLT, endLE, flipEndToStart, crossLE] <;> omega

theorem cross_flipStart_self {s : Bound} (h : s ≠ .unbounded) :
    crossLE s (flipStartToEnd s) = false := by
  rcases s <;> simp_all [flipStartToEnd, crossLE]

theorem cross_flipEnd_self {e : Bound} (h : e ≠ .unbounded) :
    crossLE (flipEndToStart e) e = false := by
  rcases e <;> simp_all [flipEndToStart, crossLE]

theorem startLT_ne_unbounded {a b : Bound} (h : startLT a b = true) :
    b ≠ .unbounded := by
  rcases b <;> simp_all [startLT, startLE]

theorem endLT_ne_unbounded {a b : Bound} (h : endLT a b = true) :
    a ≠ .unbounded := by
  rcases a <;> rcases b <;> simp_all [endLT, endLE]

/-! Facts about the overlap relation. -/

theorem overlap_symm {a b : RangeKey} (h : overlapB a b = true) :
    overlapB b a = true := by
  unfold overlapB at h ⊢
  have hmax : startLE (startMax b.startBound a.startBound)
      (startMax a.startBound b.startBound) = true :=
    startMax_le (startLE_startMax_right _ _) (startLE_startMax_left _ _)
  have hmin : endLE (endMin a.endBound b.endBound)
      (endMin b.endBound a.endBound) = true :=
    le_endMin (endMin_endLE_right _ _) (endMin_endLE_left _ _)
  exact cross_of_endLE (cross_of_startLE hmax h) hmin

theorem overlap_valid_left {a b : RangeKey} (h : overlapB a b = true) :
    validB a = true := by
  unfold overlapB at h
  unfold validB
  exact cross_of_endLE
    (cross_of_startLE (startLE_startMax_left _ _) h)
    (endMin_endLE_left _ _)

theorem overlap_valid_right {a b : RangeKey} (h : overlapB a b = true) :
    validB b = true := by
  unfold overlapB at h
  unfold validB
  exact cross_of_endLE
    (cross_of_startLE (startLE_startMax_right _ _) h)
    (endMin_endLE_right _ _)

theorem overlap_cross_left {a b : RangeKey} (h : overlapB a b = true) :
    crossLE a.startBound b.endBound = true := by
  unfold overlapB at h
  exact cross_of_endLE
    (cross_of_startLE (startLE_startMax_left _ _) h)
    (endMin_endLE_right _ _)

theorem overlap_cross_right {a b : RangeKey} (h : overlapB a b = true) :
    crossLE b.startBound a.endBound = true := by
  unfold overlapB at h
  exact cross_of_endLE
    (cross_of_startLE (startLE_startMax_right _ _) h)
    (endMin_endLE_left _ _)

theorem overlap_of_mem {a b : RangeKey} {p : Int} (ha : memB a p = true)
    (hb : memB b p = true) : overlapB a b = true := by
  unfold memB at ha hb
  simp only [Bool.and_eq_true] at ha hb
  unfold overlapB
  exact cross_of_sat
    ((startSat_startMax _ _ _).mpr ⟨ha.1, hb.1⟩)
    ((endSat_endMin _ _ _).mpr ⟨ha.2, hb.2⟩)

/-- One range-key lies inside another: its start is at or after the
other's start and its end at or before the other's end. -/
def subRangeB (a b : RangeKey) : Bool :=
  startLE b.startBound a.startBound && endLE a.endBound b.endBound

theorem overlap_mono {a b s : RangeKey} (hsub : subRangeB a b = true)
    (h : overlapB a s = true) : overlapB b s = true := by
  unfold subRangeB at hsub
  simp only [Bool.and_eq_true] at hsub
  unfold overlapB at h ⊢
  have hmax : startLE (startMax b.startBound s.startBound)
      (startMax a.startBound s.startBound) = true :=
    startMax_le (startLE_trans hsub.1 (startLE_startMax_left _ _))
      (startLE_startMax_right _ _)
  have hmin : endLE (endMin a.endBound s.endBound)
      (endMin b.endBound s.endBound) = true :=
    le_endMin (endLE_trans (endMin_endLE_left _ _) hsub.2)
      (endMin_endLE_right _ _)
  exact cross_of_endLE (cross_of_startLE hmax h) hmin

theorem pointRange_overlap (r : RangeKey) (p : Int) :
    overlapB r ⟨.included p, .included p⟩ = true ↔ memB r p = true := by
  rcases r with ⟨sb, eb⟩
  rcases sb <;> rcases eb <;>
    simp only [overlapB, startMax, endMin, startLE, endLE, crossLE, memB,
      startSat, endSat] <;>
    split_ifs <;> simp_all <;> omega

/-! Facts about the backing sorted-list operations. -/

theorem insertSorted_perm {V : Type} (x : RangeKey × V)
    (l : List (RangeKey × V)) : (insertSorted x l).Perm (x :: l) := by
  induction l with
  | nil => simp [insertSorted]
  | cons y ys ih =>
    unfold insertSorted
    split
    · exact List.Perm.refl _
    · exact (List.Perm.cons y ih).trans (List.Perm.swap x y ys)

theorem mem_insertSorted {V : Type} {a x : RangeKey × V}
    {l : List (RangeKey × V)} :
    a ∈ insertSorted x l ↔ a = x ∨ a ∈ l := by
  rw [List.Perm.mem_iff (insertSorted_perm x l)]
  simp

theorem length_insertSorted {V : Type} (x : RangeKey × V)
    (l : List (RangeKey × V)) :
    (insertSorted x l).length = l.length + 1 := by
  rw [List.Perm.length_eq (insertSorted_perm x l)]
  simp

theorem pairwise_insertSorted {V : Type} {R : RangeKey × V → RangeKey × V → Prop}
    (hsymm : Symmetric R) {x : RangeKey × V} {l : List (RangeKey × V)}
    (hl : l.Pairwise R) (hx : ∀ y ∈ l, R x y) :
    (insertSorted x l).Pairwise R := by
  exact List.Perm.pairwise (insertSorted_perm x l).symm
    (List.pairwise_cons.mpr ⟨hx, hl⟩) (fun h => hsymm h)

theorem filter_insertSorted_unique {V : Type} {p : RangeKey × V → Bool}
    {x : RangeKey × V} {l : List (RangeKey × V)} (hx : p x = true)
    (hl : ∀ y ∈ l, p y = false) :
    (insertSorted x l).filter p = [x] := by
  induction l with
  | nil => simp [insertSorted, hx]
  | cons y ys ih =>
    unfold insertSorted
    split
    · rw [List.filter_cons_of_pos hx, List.filter_cons_of_neg
        (by simp [hl y (by simp)]), List.filter_eq_nil_iff.mpr
        (fun z hz => by simp [hl z (by simp [hz])])]
    · rw [List.filter_cons_of_neg (by simp [hl y (by simp)])]
      exact ih (fun z hz => hl z (by simp [hz]))

theorem removeExact_none {V : Type} {k : RangeKey}
    {l : List (RangeKey × V)} (h : ∀ y ∈ l, y.1 ≠ k) :
    removeExact k l = (none, l) := by
  induction l with
  | nil => rfl
  | cons y ys ih =>
    unfold removeExact
    rw [if_neg (h y (by simp))]
    simp [ih (fun z hz => h z (by simp [hz]))]

theorem removeExact_insertSorted {V : Type} {k : RangeKey} {v : V}
    {l : List (RangeKey × V)} (h : ∀ y ∈ l, y.1 ≠ k) :
    removeExact k (insertSorted (k, v) l) = (some v, l) := by
  induction l with
  | nil => simp [insertSorted, removeExact]
  | cons y ys ih =>
    unfold insertSorted
    split
    · unfold removeExact
      rw [if_pos rfl]
    · unfold removeExact
      rw [if_neg (h y (by simp))]
      simp [ih (fun z hz => h z (by simp [hz]))]

theorem removeExact_sublist {V : Type} (k : RangeKey)
    (l : List (RangeKey × V)) : List.Sublist (removeExact k l).2 l := by
  induction l with
  | nil => simp [removeExact]
  | cons y ys ih =>
    unfold removeExact
    split
    · simp
    · simpa using List.Sublist.cons₂ y ih

theorem removeExact_some {V : Type} {k : RangeKey} {v : V}
    {l l' : List (RangeKey × V)} (h : removeExact k l = (some v, l')) :
    ∃ l1 l2, l = l1 ++ (k, v) :: l2 ∧ l' = l1 ++ l2 ∧
      ∀ x ∈ l1, x.1 ≠ k := by
  induction l generalizing l' with
  | nil => simp [removeExact] at h
  | cons y ys ih =>
    unfold removeExact at h
    by_cases hy : y.1 = k
    · rw [if_pos hy] at h
      simp only [Prod.mk.injEq, Option.some.injEq] at h
      obtain ⟨rfl, rfl⟩ := h
      refine ⟨[], ys, ?_, by simp, by simp⟩
      obtain rfl := hy
      simp
    · rw [if_neg hy] at h
      simp only [Prod.mk.injEq] at h
      obtain ⟨h1, h2⟩ := h
      have hpair : removeExact k ys = (some v, (removeExact k ys).2) := by
        rw [← h1]
      obtain ⟨l1, l2, hys, hsnd, hl1⟩ := ih hpair
      refine ⟨y :: l1, l2, by simp [hys], ?_, ?_⟩
      · rw [← h2, hsnd]
        simp
      · intro x hx
        rcases List.mem_cons.mp hx with rfl | hx
        · exact hy
        · exact hl1 x hx

/-! Facts about the pieces produced by `cut`. -/

theorem subRangeB_refl (a : RangeKey) : subRangeB a a = true := by
  simp [subRangeB, startLE_refl, endLE_refl]

theorem startLT_false {a b : Bound} (h : startLT a b = false) :
    startLE b a = true := by
  simpa [startLT] using h

theorem endLT_false {a b : Bound} (h : endLT a b = false) :
    endLE b a = true := by
  simpa [endLT] using h

theorem mem_leftResidual {V : Type} {q : RangeKey} {e x : RangeKey × V}
    (hx : x ∈ leftResidual q e) :
    startLT e.1.startBound q.startBound = true ∧
      x = (⟨e.1.startBound, flipStartToEnd q.startBound⟩, e.2) := by
  unfold leftResidual at hx
  split at hx <;> simp_all

theorem mem_rightResidual {V : Type} {q : RangeKey} {e x : RangeKey × V}
    (hx : x ∈ rightResidual q e) :
    endLT q.endBound e.1.endBound = true ∧
      x = (⟨flipEndToStart q.endBound, e.1.endBound⟩, e.2) := by
  unfold rightResidual at hx
  split at hx <;> simp_all

theorem leftResidual_valid {V : Type} {q : RangeKey} {e x : RangeKey × V}
    (hx : x ∈ leftResidual q e) : validB x.1 = true := by
  obtain ⟨g, rfl⟩ := mem_leftResidual hx
  exact cross_startLT_flip g

theorem rightResidual_valid {V : Type} {q : RangeKey} {e x : RangeKey × V}
    (hx : x ∈ rightResidual q e) : validB x.1 = true := by
  obtain ⟨g, rfl⟩ := mem_rightResidual hx
  exact cross_endLT_flip g

theorem leftResidual_sub {V : Type} {q : RangeKey} {e x : RangeKey × V}
    (ho : overlapB e.1 q = true) (hx : x ∈ leftResidual q e) :
    subRangeB x.1 e.1 = true := by
  obtain ⟨g, rfl⟩ := mem_leftResidual hx
  unfold subRangeB
  simp only [Bool.and_eq_true]
  exact ⟨startLE_refl _,
    endLE_flipStart (startLT_ne_unbounded g) (overlap_cross_right ho)⟩

theorem rightResidual_sub {V : Type} {q : RangeKey} {e x : RangeKey × V}
    (ho : overlapB e.1 q = true) (hx : x ∈ rightResidual q e) :
    subRangeB x.1 e.1 = true := by
  obtain ⟨g, rfl⟩ := mem_rightResidual hx
  unfold subRangeB
  simp only [Bool.and_eq_true]
  exact ⟨startLE_flipEnd (endLT_ne_unbounded g) (overlap_cross_left ho),
    endLE_refl _⟩

theorem leftResidual_not_overlap {V : Type} {q : RangeKey}
    {e x : RangeKey × V} (hx : x ∈ leftResidual q e) :
    overlapB x.1 q = false := by
  obtain ⟨g, rfl⟩ := mem_leftResidual hx
  apply Bool.eq_false_iff.mpr
  intro htrue
  have h1 : crossLE q.startBound (flipStartToEnd q.startBound) = true :=
    cross_of_endLE
      (cross_of_startLE (startLE_startMax_right _ _) htrue)
      (endMin_endLE_left _ _)
  rw [cross_flipStart_self (startLT_ne_unbounded g)] at h1
  exact Bool.false_ne_true h1

theorem rightResidual_not_overlap {V : Type} {q : RangeKey}
    {e x : RangeKey × V} (hx : x ∈ rightResidual q e) :
    overlapB x.1 q = false := by
  obtain ⟨g, rfl⟩ := mem_rightResidual hx
  apply Bool.eq_false_iff.mpr
  intro htrue
  have h1 : crossLE (flipEndToStart q.endBound) q.endBound = true :=
    cross_of_endLE
      (cross_of_startLE (startLE_startMax_left _ _) htrue)
      (endMin_endLE_right _ _)
  rw [cross_flipEnd_self (endLT_ne_unbounded g)] at h1
  exact Bool.false_ne_true h1

theorem fragOf_valid {V : Type} {q : RangeKey} {e : RangeKey × V}
    (ho : overlapB e.1 q = true) : validB (fragOf q e).1 = true := by
  simpa [fragOf, validB, overlapB] using ho

theorem fragOf_sub {V : Type} (q : RangeKey) (e : RangeKey × V) :
    subRangeB (fragOf q e).1 e.1 = true := by
  unfold fragOf subRangeB
  simp only [Bool.and_eq_true]
  exact ⟨startLE_startMax_left _ _, endMin_endLE_left _ _⟩

theorem fragOf_mem {V : Type} (q : RangeKey) (e : RangeKey × V) (p : Int) :
    memB (fragOf q e).1 p = true ↔
      (memB e.1 p = true ∧ memB q p = true) := by
  unfold fragOf memB
  simp only [Bool.and_eq_true, startSat_startMax, endSat_endMin]
  tauto

theorem cutEntry_residual_cases {V : Type} {q : RangeKey}
    {e x : RangeKey × V} (hx : x ∈ (cutEntry q e).1) :
    (overlapB e.1 q = false ∧ x = e) ∨
      (overlapB e.1 q = true ∧
        (x ∈ leftResidual q e ∨ x ∈ rightResidual q e)) := by
  unfold cutEntry at hx
  split at hx
  · rename_i h
    simp only [List.mem_singleton] at hx
    exact Or.inl ⟨h, hx⟩
  · rename_i h
    rw [Bool.not_eq_false] at h
    exact Or.inr ⟨h, List.mem_append.mp hx⟩

theorem cutEntry_frag_cases {V : Type} {q : RangeKey} {e x : RangeKey × V}
    (hx : x ∈ (cutEntry q e).2) :
    overlapB e.1 q = true ∧ x = fragOf q e := by
  unfold cutEntry at hx
  split at hx
  · simp at hx
  · rename_i h
    rw [Bool.not_eq_false] at h
    simp only [List.mem_singleton] at hx
    exact ⟨h, hx⟩

theorem cutEntry_residual_sub {V : Type} {q : RangeKey} {e x : RangeKey × V}
    (hx : x ∈ (cutEntry q e).1) : subRangeB x.1 e.1 = true ∧ x.2 = e.2 := by
  rcases cutEntry_residual_cases hx with ⟨_, rfl⟩ | ⟨ho, hlr⟩
  · exact ⟨subRangeB_refl _, rfl⟩
  · rcases hlr with hl | hr
    · exact ⟨leftResidual_sub ho hl, ((mem_leftResidual hl).2 ▸ rfl)⟩
    · exact ⟨rightResidual_sub ho hr, ((mem_rightResidual hr).2 ▸ rfl)⟩

theorem cutEntry_residual_not_overlap {V : Type} {q : RangeKey}
    {e x : RangeKey × V} (hx : x ∈ (cutEntry q e).1) :
    overlapB x.1 q = false := by
  rcases cutEntry_residual_cases hx with ⟨hno, rfl⟩ | ⟨ho, hlr⟩
  · exact hno
  · rcases hlr with hl | hr
    · exact leftResidual_not_overlap hl
    · exact rightResidual_not_overlap hr

theorem cutEntry_residual_valid {V : Type} {q : RangeKey}
    {e x : RangeKey × V} (hv : validB e.1 = true)
    (hx : x ∈ (cutEntry q e).1) : validB x.1 = true := by
  rcases cutEntry_residual_cases hx with ⟨_, rfl⟩ | ⟨ho, hlr⟩
  · exact hv
  · rcases hlr with hl | hr
    · exact leftResidual_valid hl
    · exact rightResidual_valid hr

theorem cutEntry_residual_pairwise {V : Type} (q : RangeKey)
    (e : RangeKey × V) :
    ((cutEntry q e).1).Pairwise (fun a b => overlapB a.1 b.1 = false) := by
  unfold cutEntry
  split
  · simp
  · rename_i h
    rw [Bool.not_eq_false] at h
    unfold leftResidual rightResidual
    split_ifs with g1 g2 g2 <;> simp_all
    apply Bool.eq_false_iff.mpr
    intro htrue
    have h1 : crossLE (flipEndToStart q.endBound)
        (flipStartToEnd q.startBound) = true :=
      cross_of_endLE
        (cross_of_startLE (startLE_startMax_right _ _) htrue)
        (endMin_endLE_left _ _)
    rw [cross_flip_gap (startLT_ne_unbounded g1) (endLT_ne_unbounded g2)
      (overlap_valid_right h)] at h1
    exact Bool.false_ne_true h1

theorem cutEntry_coverage {V : Type} (q : RangeKey) (e : RangeKey × V)
    (p : Int) :
    ((∃ x ∈ (cutEntry q e).1, memB x.1 p = true) ∨
      (∃ x ∈ (cutEntry q e).2, memB x.1 p = true)) ↔
      memB e.1 p = true := by
  constructor
  · rintro (⟨x, hx, hmem⟩ | ⟨x, hx, hmem⟩)
    · rcases cutEntry_residual_cases hx with ⟨_, rfl⟩ | ⟨ho, hlr⟩
      · exact hmem
      · rcases hlr with hl | hr
        · obtain ⟨g, rfl⟩ := mem_leftResidual hl
          unfold memB at hmem ⊢
          simp only [Bool.and_eq_true] at hmem ⊢
          exact ⟨hmem.1, endSat_mono
            (endLE_flipStart (startLT_ne_unbounded g) (overlap_cross_right ho))
            hmem.2⟩
        · obtain ⟨g, rfl⟩ := mem_rightResidual hr
          unfold memB at hmem ⊢
          simp only [Bool.and_eq_true] at hmem ⊢
          exact ⟨startSat_mono
            (startLE_flipEnd (endLT_ne_unbounded g) (overlap_cross_left ho))
            hmem.1, hmem.2⟩
    · obtain ⟨ho, rfl⟩ := cutEntry_frag_cases hx
      exact ((fragOf_mem q e p).mp hmem).1
  · intro hm
    by_cases hov : overlapB e.1 q = false
    · refine Or.inl ⟨e, ?_, hm⟩
      unfold cutEntry
      rw [if_pos hov]
      simp
    · rw [Bool.not_eq_false] at hov
      have hmem' := hm
      unfold memB at hmem'
      simp only [Bool.and_eq_true] at hmem'
      by_cases hqs : startSat q.startBound p = true
      · by_cases hqe : endSat q.endBound p = true
        · refine Or.inr ⟨fragOf q e, ?_, ?_⟩
          · unfold cutEntry
            rw [if_neg (by simp [hov])]
            simp
          · refine (fragOf_mem q e p).mpr ⟨hm, ?_⟩
            unfold memB
            rw [hqs, hqe]
            rfl
        · have g2 : endLT q.endBound e.1.endBound = true := by
            cases hg : endLT q.endBound e.1.endBound
            · exact absurd (endSat_mono (endLT_false hg) hmem'.2) hqe
            · rfl
          refine Or.inl ⟨(⟨flipEndToStart q.endBound, e.1.endBound⟩, e.2),
            ?_, ?_⟩
          · unfold cutEntry
            rw [if_neg (by simp [hov])]
            refine List.mem_append.mpr (Or.inr ?_)
            unfold rightResidual
            rw [if_pos g2]
            simp
          · unfold memB
            simp only [Bool.and_eq_true]
            exact ⟨(startSat_flipEnd (endLT_ne_unbounded g2) p).mpr hqe,
              hmem'.2⟩
      · have g1 : startLT e.1.startBound q.startBound = true := by
          cases hg : startLT e.1.startBound q.startBound
          · exact absurd (startSat_mono (startLT_false hg) hmem'.1) hqs
          · rfl
        refine Or.inl ⟨(⟨e.1.startBound, flipStartToEnd q.startBound⟩, e.2),
          ?_, ?_⟩
        · unfold cutEntry
          rw [if_neg (by simp [hov])]
          refine List.mem_append.mpr (Or.inl ?_)
          unfold leftResidual
          rw [if_pos g1]
          simp
        · unfold memB
          simp only [Bool.and_eq_true]
          exact ⟨hmem'.1,
            (endSat_flipStart (startLT_ne_unbounded g1) p).mpr hqs⟩

theorem overlap_symm_false {a b : RangeKey} (h : overlapB a b = false) :
    overlapB b a = false := by
  cases hc : overlapB b a
  · rfl
  · have hcontra := (overlap_symm hc).symm.trans h
    exact absurd hcontra (by decide)

theorem nonoverlap_of_sub {a b c d : RangeKey} (hac : subRangeB a c = true)
    (hbd : subRangeB b d = true) (hcd : overlapB c d = false) :
    overlapB a b = false := by
  apply Bool.eq_false_iff.mpr
  intro htrue
  have h1 : overlapB c b = true := overlap_mono hac htrue
  have h2 : overlapB d c = true := overlap_mono hbd (overlap_symm h1)
  have hcontra := (overlap_symm h2).symm.trans hcd
  exact absurd hcontra (by decide)

theorem mem_cutList_residual {V : Type} {q : RangeKey}
    {l : List (RangeKey × V)} {x : RangeKey × V}
    (hx : x ∈ (cutList q l).1) : ∃ e ∈ l, x ∈ (cutEntry q e).1 := by
  induction l with
  | nil => simp [cutList] at hx
  | cons e rest ih =>
    simp only [cutList] at hx
    rcases List.mem_append.mp hx with h | h
    · exact ⟨e, by simp, h⟩
    · obtain ⟨e', he', hx'⟩ := ih h
      exact ⟨e', by simp [he'], hx'⟩

theorem mem_cutList_frag {V : Type} {q : RangeKey}
    {l : List (RangeKey × V)} {x : RangeKey × V}
    (hx : x ∈ (cutList q l).2) : ∃ e ∈ l, x ∈ (cutEntry q e).2 := by
  induction l with
  | nil => simp [cutList] at hx
  | cons e rest ih =>
    simp only [cutList] at hx
    rcases List.mem_append.mp hx with h | h
    · exact ⟨e, by simp, h⟩
    · obtain ⟨e', he', hx'⟩ := ih h
      exact ⟨e', by simp [he'], hx'⟩

theorem cutList_pairwise {V : Type} {q : RangeKey}
    {l : List (RangeKey × V)}
    (hl : l.Pairwise (fun a b => overlapB a.1 b.1 = false)) :
    ((cutList q l).1).Pairwise (fun a b => overlapB a.1 b.1 = false) := by
  induction l with
  | nil => simp [cutList]
  | cons e rest ih =>
    rw [List.pairwise_cons] at hl
    simp only [cutList]
    refine List.pairwise_append.mpr
      ⟨cutEntry_residual_pairwise q e, ih hl.2, ?_⟩
    intro x hx y hy
    obtain ⟨e', he', hy'⟩ := mem_cutList_residual hy
    exact nonoverlap_of_sub (cutEntry_residual_sub hx).1
      (cutEntry_residual_sub hy').1 (hl.1 e' he')

theorem cutList_not_overlaps {V : Type} {q : RangeKey}
    {l : List (RangeKey × V)} {x : RangeKey × V}
    (hx : x ∈ (cutList q l).1) : overlapB x.1 q = false := by
  obtain ⟨e, _, hx'⟩ := mem_cutList_residual hx
  exact cutEntry_residual_not_overlap hx'

theorem cutList_valid {V : Type} {q : RangeKey} {l : List (RangeKey × V)}
    (hv : ∀ e ∈ l, validB e.1 = true) {x : RangeKey × V}
    (hx : x ∈ (cutList q l).1) : validB x.1 = true := by
  obtain ⟨e, he, hx'⟩ := mem_cutList_residual hx
  exact cutEntry_residual_valid (hv e he) hx'

theorem cutList_coverage {V : Type} (q : RangeKey)
    (l : List (RangeKey × V)) (p : Int) :
    ((∃ x ∈ (cutList q l).1, memB x.1 p = true) ∨
      (∃ x ∈ (cutList q l).2, memB x.1 p = true)) ↔
      ∃ e ∈ l, memB e.1 p = true := by
  induction l with
  | nil => simp [cutList]
  | cons e rest ih =>
    have he := cutEntry_coverage q e p
    simp only [cutList, List.mem_append, List.mem_cons]
    constructor
    · rintro (⟨x, hx | hx, hm⟩ | ⟨x, hx | hx, hm⟩)
      · exact ⟨e, Or.inl rfl, he.mp (Or.inl ⟨x, hx, hm⟩)⟩
      · obtain ⟨e', he', hmm⟩ := ih.mp (Or.inl ⟨x, hx, hm⟩)
        exact ⟨e', Or.inr he', hmm⟩
      · exact ⟨e, Or.inl rfl, he.mp (Or.inr ⟨x, hx, hm⟩)⟩
      · obtain ⟨e', he', hmm⟩ := ih.mp (Or.inr ⟨x, hx, hm⟩)
        exact ⟨e', Or.inr he', hmm⟩
    · rintro ⟨e', he' | he', hmm⟩
      · subst he'
        rcases he.mpr hmm with ⟨x, hx, hm⟩ | ⟨x, hx, hm⟩
        · exact Or.inl ⟨x, Or.inl hx, hm⟩
        · exact Or.inr ⟨x, Or.inl hx, hm⟩
      · rcases ih.mpr ⟨e', he', hmm⟩ with ⟨x, hx, hm⟩ | ⟨x, hx, hm⟩
        · exact Or.inl ⟨x, Or.inr hx, hm⟩
        · exact Or.inr ⟨x, Or.inr hx, hm⟩

/-! Operation sequences, for stating the map-wide invariants of §3/§8. -/

/-- Modelled from the spec: the mutation surface of §4.3 reified as
operations, to quantify over arbitrary call sequences. -/
inductive Op (V : Type) where
  | insertOp : RangeKey → V → Op V
  | removeOp : RangeKey → Op V
  | cutOp : RangeKey → Op V

/-- Applying one operation: a failed insert returns an error and leaves
the container unchanged (§7), so the container state is the old one. -/
def applyOp {V : Type} (m : RangeBoundsMap V) : Op V → RangeBoundsMap V
  | .insertOp k v =>
    match m.insert k v with
    | .ok m2 => m2
    | .error _ => m
  | .removeOp k => (remove k m).2
  | .cutOp q => (cut q m).1

/-- The container obtained by running a call sequence from the empty
map. -/
def applyOps {V : Type} (ops : List (Op V)) : RangeBoundsMap V :=
  ops.foldl applyOp RangeBoundsMap.empty

/-- The map-wide invariant of §3: stored range-keys are pairwise
non-overlapping. -/
def pairwiseNonOverlap {V : Type} (l : List (RangeKey × V)) : Prop :=
  l.Pairwise (fun a b => overlapB a.1 b.1 = false)

theorem insert_ok_spec {V : Type} {m m' : RangeBoundsMap V} {k : RangeKey}
    {v : V} (h : m.insert k v = .ok m') :
    m'.entries = insertSorted (k, v) m.entries ∧ validB k = true ∧
      ∀ e ∈ m.entries, overlapB e.1 k = false := by
  unfold RangeBoundsMap.insert at h
  split_ifs at h with h1 h2
  · simp only [Except.ok.injEq] at h
    refine ⟨h ▸ rfl, ?_, ?_⟩
    · cases hv : validB k
      · exact absurd hv h1
      · rfl
    · intro e he
      have hno : overlaps k m = false := by
        cases ho : overlaps k m
        · rfl
        · exact absurd ho h2
      unfold overlaps at hno
      rw [List.any_eq_false] at hno
      exact Bool.eq_false_iff.mpr (hno e he)

theorem applyOp_pairwise {V : Type} {m : RangeBoundsMap V} {op : Op V}
    (h : pairwiseNonOverlap m.entries) :
    pairwiseNonOverlap (applyOp m op).entries := by
  rcases op with ⟨k, v⟩ | k | q
  · simp only [applyOp]
    cases hi : m.insert k v with
    | error e => exact h
    | ok m2 =>
      obtain ⟨hent, _, hno⟩ := insert_ok_spec hi
      rw [hent]
      refine pairwise_insertSorted (fun a b hab => overlap_symm_false hab)
        h ?_
      intro y hy
      exact overlap_symm_false (hno y hy)
  · exact List.Pairwise.sublist (removeExact_sublist k m.entries) h
  · exact cutList_pairwise h

theorem applyOp_valid {V : Type} {m : RangeBoundsMap V} {op : Op V}
    (h : ∀ e ∈ m.entries, validB e.1 = true) :
    ∀ e ∈ (applyOp m op).entries, validB e.1 = true := by
  rcases op with ⟨k, v⟩ | k | q
  · simp only [applyOp]
    cases hi : m.insert k v with
    | error e => exact h
    | ok m2 =>
      obtain ⟨hent, hvk, _⟩ := insert_ok_spec hi
      rw [hent]
      intro e he
      rcases mem_insertSorted.mp he with rfl | he
      · exact hvk
      · exact h e he
  · intro e he
    exact h e ((removeExact_sublist k m.entries).subset he)
  · intro e he
    exact cutList_valid h he

theorem applyOps_pairwise {V : Type} (ops : List (Op V)) :
    pairwiseNonOverlap (applyOps ops).entries := by
  suffices hgen : ∀ (m : RangeBoundsMap V), pairwiseNonOverlap m.entries →
      pairwiseNonOverlap (ops.foldl applyOp m).entries by
    exact hgen RangeBoundsMap.empty (by simp [RangeBoundsMap.empty,
      pairwiseNonOverlap])
  induction ops with
  | nil => intro m hm; exact hm
  | cons op rest ih =>
    intro m hm
    exact ih (applyOp m op) (applyOp_pairwise hm)

theorem applyOps_valid {V : Type} (ops : List (Op V)) :
    ∀ e ∈ (applyOps ops).entries, validB e.1 = true := by
  suffices hgen : ∀ (m : RangeBoundsMap V),
      (∀ e ∈ m.entries, validB e.1 = true) →
      ∀ e ∈ (ops.foldl applyOp m).entries, validB e.1 = true by
    exact hgen RangeBoundsMap.empty (by simp [RangeBoundsMap.empty])
  induction ops with
  | nil => intro m hm; exact hm
  | cons op rest ih =>
    intro m hm
    exact ih (applyOp m op) (applyOp_valid hm)

/-! The claims. -/

/-- C1: for every sequence of insert, remove and cut operations run from
the empty map (a failed insert leaving the container unchanged), the
stored range-keys are pairwise non-overlapping: an exclusive end touching
an inclusive start at the same point does not overlap, two inclusive
bounds at the same point do. -/
theorem nonoverlap_invariant {V : Type} (ops : List (Op V)) :
    pairwiseNonOverlap (applyOps ops).entries :=
  applyOps_pairwise ops

/-- C10: every stored range-key is a valid non-empty range — its start
bound is not after its end bound under the cross-bound order — after
every operation sequence, in particular the residual entries that cut
leaves behind when splitting a partially overlapping entry. -/
theorem valid_range_invariant {V : Type} (ops : List (Op V)) :
    ∀ e ∈ (applyOps ops).entries, validB e.1 = true :=
  applyOps_valid ops

/-- Witness for C10 at a concrete operation sequence: cutting the middle
out of a stored range leaves a valid residual entry. -/
theorem valid_range_invariant_witness :
    validB (⟨Bound.included 0, Bound.excluded 2⟩ : RangeKey) = true :=
  valid_range_invariant (V := Bool)
    [Op.insertOp ⟨.included 0, .included 10⟩ true,
     Op.cutOp ⟨.included 2, .included 3⟩]
    (⟨.included 0, .excluded 2⟩, true) (by decide)

/-- C8: overlaps returns true exactly when overlapping yields at least
one item. -/
theorem overlaps_iff_overlapping_nonempty {V : Type} (q : RangeKey)
    (m : RangeBoundsMap V) :
    overlaps q m = true ↔ overlapping q m ≠ [] := by
  unfold overlaps overlapping
  rw [List.any_eq_true]
  constructor
  · rintro ⟨x, hx, hpx⟩ hnil
    have hmem : x ∈ List.filter (fun e => overlapB e.1 q) m.entries :=
      List.mem_filter.mpr ⟨hx, hpx⟩
    rw [hnil] at hmem
    exact absurd hmem (List.not_mem_nil x)
  · intro hne
    obtain ⟨x, hx⟩ := List.exists_mem_of_ne_nil _ hne
    have hmem := List.mem_filter.mp hx
    exact ⟨x, hmem.1, hmem.2⟩

/-- C5: into an empty map, inserting the half-open range [0,5) and then
[5,10) both succeed (exclusive end touching inclusive start does not
overlap), while inserting [0,5] and then [5,10] makes the second insert
fail with an overlap error (both inclusive at 5 overlap at that point). -/
theorem boundary_touching_inserts :
    ((RangeBoundsMap.empty (V := Unit)).insert ⟨.included 0, .excluded 5⟩ () =
        .ok ⟨[(⟨.included 0, .excluded 5⟩, ())]⟩ ∧
      (RangeBoundsMap.mk [((⟨.included 0, .excluded 5⟩ : RangeKey), ())]).insert
          ⟨.included 5, .excluded 10⟩ () =
        .ok ⟨[(⟨.included 0, .excluded 5⟩, ()),
              (⟨.included 5, .excluded 10⟩, ())]⟩) ∧
    ((RangeBoundsMap.empty (V := Unit)).insert ⟨.included 0, .included 5⟩ () =
        .ok ⟨[(⟨.included 0, .included 5⟩, ())]⟩ ∧
      (RangeBoundsMap.mk [((⟨.included 0, .included 5⟩ : RangeKey), ())]).insert
          ⟨.included 5, .included 10⟩ () =
        .error (.overlapError [(⟨.included 0, .included 5⟩, ())])) :=
  ⟨⟨rfl, rfl⟩, ⟨rfl, rfl⟩⟩

/-- C6: after inserting 0..5 mapped to true and 5..10 mapped to false
into the empty map, overlaps(-2..12) is true, contains_point 20 is false
and contains_point 5 is true (the point 5 belongs to 5..10). -/
theorem scenario_bool_map :
    (RangeBoundsMap.empty (V := Bool)).insert ⟨.included 0, .excluded 5⟩ true =
      .ok ⟨[(⟨.included 0, .excluded 5⟩, true)]⟩ ∧
    (RangeBoundsMap.mk [((⟨.included 0, .excluded 5⟩ : RangeKey), true)]).insert
        ⟨.included 5, .excluded 10⟩ false =
      .ok ⟨[(⟨.included 0, .excluded 5⟩, true),
            (⟨.included 5, .excluded 10⟩, false)]⟩ ∧
    overlaps ⟨.included (-2), .excluded 12⟩
      (RangeBoundsMap.mk [((⟨.included 0, .excluded 5⟩ : RangeKey), true),
        (⟨.included 5, .excluded 10⟩, false)]) = true ∧
    contains_point 20
      (RangeBoundsMap.mk [((⟨.included 0, .excluded 5⟩ : RangeKey), true),
        (⟨.included 5, .excluded 10⟩, false)]) = false ∧
    contains_point 5
      (RangeBoundsMap.mk [((⟨.included 0, .excluded 5⟩ : RangeKey), true),
        (⟨.included 5, .excluded 10⟩, false)]) = true :=
  ⟨rfl, rfl, rfl, rfl, rfl⟩

/-- C9: in the map built from ([10,20] inclusive-inclusive mapped to
Ferris) and ((20,∞) exclusive-start unbounded-end mapped to Corro),
overlapping(16..17) yields exactly the Ferris entry, and overlaps of the
exclusive-from-20 unbounded range is true. -/
theorem scenario_reservation :
    tryFrom [((⟨.included 10, .included 20⟩ : RangeKey), "Ferris"),
             (⟨.excluded 20, .unbounded⟩, "Corro")] =
      .ok ⟨[(⟨.included 10, .included 20⟩, "Ferris"),
            (⟨.excluded 20, .unbounded⟩, "Corro")]⟩ ∧
    overlapping ⟨.included 16, .excluded 17⟩
        (RangeBoundsMap.mk [((⟨.included 10, .included 20⟩ : RangeKey), "Ferris"),
          (⟨.excluded 20, .unbounded⟩, "Corro")]) =
      [(⟨.included 10, .included 20⟩, "Ferris")] ∧
    overlaps ⟨.excluded 20, .unbounded⟩
        (RangeBoundsMap.mk [((⟨.included 10, .included 20⟩ : RangeKey), "Ferris"),
          (⟨.excluded 20, .unbounded⟩, "Corro")]) = true :=
  ⟨rfl, rfl, rfl⟩

/-- Modelled from the spec: the start bound lies strictly after the end
bound under point order (§7) — both bounds carry points and the start
point exceeds the end point. -/
def pointOrderAfter (k : RangeKey) : Bool :=
  match k.startBound, k.endBound with
  | .included a, .included b => b < a
  | .included a, .excluded b => b < a
  | .excluded a, .included b => b < a
  | .excluded a, .excluded b => b < a
  | _, _ => false

theorem pointOrderAfter_invalid {k : RangeKey}
    (h : pointOrderAfter k = true) : validB k = false := by
  rcases k with ⟨sb, eb⟩
  rcases sb <;> rcases eb <;>
    simp_all [pointOrderAfter, validB, crossLE] <;> omega

theorem overlap_self {k : RangeKey} (h : validB k = true) :
    overlapB k k = true := by
  unfold overlapB startMax endMin
  rw [ite_self, ite_self]
  exact h

/-- C2: insert rejects a range whose start bound is strictly after its
end bound under point order with the invalid-range error, rejects a range
overlapping at least one existing entry with an overlap error carrying
the conflicting entries, and on success adds exactly one new entry while
keeping every existing entry; in the embedding a rejected insert returns
only the error, so the container value in use is unchanged. -/
theorem insert_error_cases {V : Type} (m : RangeBoundsMap V) (k : RangeKey)
    (v : V) :
    (pointOrderAfter k = true → m.insert k v = .error .invalidRange) ∧
    (overlaps k m = true →
      m.insert k v = .error (.overlapError (overlapping k m)) ∧
        overlapping k m ≠ []) ∧
    (∀ m', m.insert k v = .ok m' →
      m'.entries.length = m.entries.length + 1 ∧
      (∀ e ∈ m.entries, e ∈ m'.entries) ∧ (k, v) ∈ m'.entries) := by
  refine ⟨?_, ?_, ?_⟩
  · intro hafter
    unfold RangeBoundsMap.insert
    rw [if_pos (pointOrderAfter_invalid hafter)]
  · intro hov
    have hvk : validB k = true := by
      unfold overlaps at hov
      rw [List.any_eq_true] at hov
      obtain ⟨e, _, he⟩ := hov
      exact overlap_valid_right he
    constructor
    · unfold RangeBoundsMap.insert
      rw [if_neg (by simp [hvk]), if_pos hov]
    · unfold overlaps at hov
      rw [List.any_eq_true] at hov
      obtain ⟨e, hem, he⟩ := hov
      intro hnil
      have hmem : e ∈ overlapping k m := by
        unfold overlapping
        exact List.mem_filter.mpr ⟨hem, he⟩
      rw [hnil] at hmem
      exact absurd hmem (List.not_mem_nil e)
  · intro m' hok
    obtain ⟨hent, _, _⟩ := insert_ok_spec hok
    rw [hent]
    exact ⟨length_insertSorted _ _,
      fun e he => mem_insertSorted.mpr (Or.inr he),
      mem_insertSorted.mpr (Or.inl rfl)⟩

/-- Witness for C2: a start-after-end range is rejected as invalid, and a
range meeting a stored range at a doubly-inclusive point is rejected with
the overlap error naming the stored entry. -/
theorem insert_error_cases_witness :
    ((RangeBoundsMap.empty (V := Unit)).insert ⟨.included 5, .included 2⟩ () =
      .error .invalidRange ∧
    (RangeBoundsMap.mk [((⟨.included 0, .included 5⟩ : RangeKey), ())]).insert
        ⟨.included 5, .included 10⟩ () =
      .error (.overlapError (overlapping ⟨.included 5, .included 10⟩
        (RangeBoundsMap.mk [((⟨.included 0, .included 5⟩ : RangeKey), ())])))) ∧
    ((RangeBoundsMap.mk [((⟨.included 0, .included 5⟩ : RangeKey), ())]
        : RangeBoundsMap Unit).entries.length + 1 =
      (RangeBoundsMap.mk [((⟨.included 0, .included 5⟩ : RangeKey), ()),
        ((⟨.included 7, .included 9⟩ : RangeKey), ())]).entries.length ∧
      ((⟨.included 7, .included 9⟩ : RangeKey), ()) ∈
        (RangeBoundsMap.mk [((⟨.included 0, .included 5⟩ : RangeKey), ()),
          ((⟨.included 7, .included 9⟩ : RangeKey), ())]).entries) :=
  ⟨⟨(insert_error_cases RangeBoundsMap.empty ⟨.included 5, .included 2⟩ ()).1
      (by decide),
    ((insert_error_cases (RangeBoundsMap.mk
        [((⟨.included 0, .included 5⟩ : RangeKey), ())])
      ⟨.included 5, .included 10⟩ ()).2.1 (by decide)).1⟩,
   ⟨(((insert_error_cases (RangeBoundsMap.mk
        [((⟨.included 0, .included 5⟩ : RangeKey), ())])
      ⟨.included 7, .included 9⟩ ()).2.2 (RangeBoundsMap.mk
        [((⟨.included 0, .included 5⟩ : RangeKey), ()),
         ((⟨.included 7, .included 9⟩ : RangeKey), ())]) rfl).1).symm,
    (((insert_error_cases (RangeBoundsMap.mk
        [((⟨.included 0, .included 5⟩ : RangeKey), ())])
      ⟨.included 7, .included 9⟩ ()).2.2 (RangeBoundsMap.mk
        [((⟨.included 0, .included 5⟩ : RangeKey), ()),
         ((⟨.included 7, .included 9⟩ : RangeKey), ())]) rfl).2).2⟩⟩

/-- C7: remove removes and returns only an entry whose stored range-key
has exactly the argument's start and end bounds; with no exactly-equal
stored key it returns none and removes nothing, even when the argument
overlaps stored entries. -/
theorem remove_exact_only {V : Type} (k : RangeKey) (m : RangeBoundsMap V) :
    (∀ (v : V) (m'' : RangeBoundsMap V), remove k m = (some v, m'') →
      ∃ l1 l2, m.entries = l1 ++ (k, v) :: l2 ∧ m''.entries = l1 ++ l2 ∧
        ∀ x ∈ l1, x.1 ≠ k) ∧
    ((∀ x ∈ m.entries, x.1 ≠ k) → remove k m = (none, m)) := by
  constructor
  · intro v m'' h
    unfold remove at h
    simp only [Prod.mk.injEq] at h
    obtain ⟨h1, h2⟩ := h
    have hpair : removeExact k m.entries = (some v, m''.entries) := by
      rw [← h1, ← h2]
    exact removeExact_some hpair
  · intro hne
    unfold remove
    rw [removeExact_none hne]

/-- Witness for C7: removing a range that overlaps (but does not equal)
the stored range-key returns none and keeps the container unchanged. -/
theorem remove_exact_only_witness :
    remove (⟨.included 0, .included 5⟩ : RangeKey)
      (RangeBoundsMap.mk [((⟨.included 0, .included 10⟩ : RangeKey), true)]) =
      (none, RangeBoundsMap.mk
        [((⟨.included 0, .included 10⟩ : RangeKey), true)]) ∧
    ∃ l1 l2,
      (RangeBoundsMap.mk [((⟨.included 0, .included 10⟩ : RangeKey), true)]).entries =
        l1 ++ ((⟨.included 0, .included 10⟩ : RangeKey), true) :: l2 ∧
      (RangeBoundsMap.mk ([] : List (RangeKey × Bool))).entries = l1 ++ l2 ∧
      ∀ x ∈ l1, x.1 ≠ (⟨.included 0, .included 10⟩ : RangeKey) :=
  ⟨(remove_exact_only ⟨.included 0, .included 5⟩
      (RangeBoundsMap.mk [((⟨.included 0, .included 10⟩ : RangeKey), true)])).2
      (by decide),
   (remove_exact_only ⟨.included 0, .included 10⟩
      (RangeBoundsMap.mk [((⟨.included 0, .included 10⟩ : RangeKey), true)])).1
      true (RangeBoundsMap.mk []) rfl⟩

/-- C4: after a successful insert of (k, v), get_at_point returns some v
at every point inside k, and an immediate remove k — for any successful
insert, point-free or not — returns some v and restores exactly the
container from before the insert. -/
theorem insert_roundtrip {V : Type} {m m' : RangeBoundsMap V}
    {k : RangeKey} {v : V} (hins : m.insert k v = .ok m') :
    (∀ p : Int, memB k p = true → get_at_point p m' = some v) ∧
      remove k m' = (some v, m) := by
  obtain ⟨hent, hvk, hno⟩ := insert_ok_spec hins
  constructor
  · intro p hp
    have hothers : ∀ y ∈ m.entries,
        overlapB y.1 (⟨.included p, .included p⟩ : RangeKey) = false := by
      intro y hy
      cases hov : overlapB y.1 ⟨.included p, .included p⟩
      · rfl
      · have hmem := (pointRange_overlap y.1 p).mp hov
        have hcontra : overlapB y.1 k = true := overlap_of_mem hmem hp
        rw [hno y hy] at hcontra
        exact absurd hcontra (by decide)
    unfold get_at_point overlapping
    rw [hent, filter_insertSorted_unique
      ((pointRange_overlap k p).mpr hp) hothers]
    rfl
  · have hkeys : ∀ y ∈ m.entries, y.1 ≠ k := by
      intro y hy hk
      have hcontra : overlapB y.1 k = true := by
        rw [hk]
        exact overlap_self hvk
      rw [hno y hy] at hcontra
      exact absurd hcontra (by decide)
    unfold remove
    rw [hent, removeExact_insertSorted hkeys]

/-- Witness for C4: inserting [0,5) with value true into the empty map
and reading back the point 2, then removing the exact range; the remove
half also holds for the point-free insert of (0,1) exclusive-exclusive. -/
theorem insert_roundtrip_witness :
    get_at_point 2 (RangeBoundsMap.mk
      [((⟨.included 0, .excluded 5⟩ : RangeKey), true)]) = some true ∧
    remove (⟨.included 0, .excluded 5⟩ : RangeKey)
      (RangeBoundsMap.mk [((⟨.included 0, .excluded 5⟩ : RangeKey), true)]) =
      (some true, RangeBoundsMap.empty) ∧
    remove (⟨.excluded 0, .excluded 1⟩ : RangeKey)
      (RangeBoundsMap.mk [((⟨.excluded 0, .excluded 1⟩ : RangeKey), false)]) =
      (some false, RangeBoundsMap.empty) :=
  ⟨(insert_roundtrip (m := RangeBoundsMap.empty)
      (k := ⟨.included 0, .excluded 5⟩) (v := true) rfl).1 2 (by decide),
   (insert_roundtrip (m := RangeBoundsMap.empty)
      (k := ⟨.included 0, .excluded 5⟩) (v := true) rfl).2,
   (insert_roundtrip (m := RangeBoundsMap.empty)
      (k := ⟨.excluded 0, .excluded 1⟩) (v := false) rfl).2⟩

/-- C3: after cut(q) the residual map no longer overlaps q; the points
covered by the residual entries together with the yielded fragments are
exactly the points covered before the cut; and every residual or fragment
is a sub-range of a pre-cut entry carrying that entry's value. -/
theorem cut_completeness {V : Type} (q : RangeKey) (m : RangeBoundsMap V) :
    overlaps q (cut q m).1 = false ∧
    (∀ p : Int,
      ((∃ x ∈ (cut q m).1.entries, memB x.1 p = true) ∨
        (∃ x ∈ (cut q m).2, memB x.1 p = true)) ↔
      ∃ e ∈ m.entries, memB e.1 p = true) ∧
    (∀ x ∈ (cut q m).1.entries, ∃ e ∈ m.entries,
      x.2 = e.2 ∧ subRangeB x.1 e.1 = true) ∧
    (∀ x ∈ (cut q m).2, ∃ e ∈ m.entries,
      x.2 = e.2 ∧ subRangeB x.1 e.1 = true) := by
  refine ⟨?_, ?_, ?_, ?_⟩
  · unfold overlaps cut
    rw [List.any_eq_false]
    intro x hx
    simp only [cutList_not_overlaps hx]
    exact Bool.false_ne_true
  · intro p
    exact cutList_coverage q m.entries p
  · intro x hx
    obtain ⟨e, he, hx'⟩ := mem_cutList_residual hx
    obtain ⟨hsub, hval⟩ := cutEntry_residual_sub hx'
    exact ⟨e, he, hval, hsub⟩
  · intro x hx
    obtain ⟨e, he, hx'⟩ := mem_cutList_frag hx
    obtain ⟨ho, rfl⟩ := cutEntry_frag_cases hx'
    exact ⟨e, he, rfl, fragOf_sub q e⟩

/-- Witness for C3: cutting [2,3] out of a map holding [0,10] leaves a
residual left part [0,2) carrying the original value, a sub-range of the
original entry. -/
theorem cut_completeness_witness :
    overlaps (⟨.included 2, .included 3⟩ : RangeKey)
      (cut ⟨.included 2, .included 3⟩ (RangeBoundsMap.mk
        [((⟨.included 0, .included 10⟩ : RangeKey), true)])).1 = false ∧
    ∃ e ∈ (RangeBoundsMap.mk
        [((⟨.included 0, .included 10⟩ : RangeKey), true)]).entries,
      ((⟨.included 0, .excluded 2⟩ : RangeKey), true).2 = e.2 ∧
        subRangeB ((⟨.included 0, .excluded 2⟩ : RangeKey), true).1 e.1 = true :=
  ⟨(cut_completeness ⟨.included 2, .included 3⟩ (RangeBoundsMap.mk
      [((⟨.included 0, .included 10⟩ : RangeKey), true)])).1,
   (cut_completeness ⟨.included 2, .included 3⟩ (RangeBoundsMap.mk
      [((⟨.included 0, .included 10⟩ : RangeKey), true)])).2.2.1
     ((⟨.included 0, .excluded 2⟩ : RangeKey), true) (by decide)⟩

/-- Witness for C8 at a concrete map and query: the query overlapping the
single stored entry makes overlaps true. -/
theorem overlaps_iff_overlapping_nonempty_witness :
    overlaps (⟨.included 3, .included 4⟩ : RangeKey)
      (RangeBoundsMap.mk [((⟨.included 0, .included 10⟩ : RangeKey), true)]) =
      true :=
  (overlaps_iff_overlapping_nonempty ⟨.included 3, .included 4⟩
    (RangeBoundsMap.mk [((⟨.included 0, .included 10⟩ : RangeKey), true)])).mpr
    (by decide)
